import Mathlib

/-!
Verification of the document-editing core of a small tabbed text editor.
The Rust sources (`document.rs`, `app.rs`) are shallowly embedded: the text
buffer is a list of characters, filesystem writes are recorded as explicit
events `(path, contents)`, and the success of each `fs::write` call is an
oracle parameter supplied by the environment.
-/

namespace Editor

/-- Shallow embedding of `struct Document` from `document.rs`.  The text
buffer and the undo/redo snapshots are lists of characters; the stacks grow
at the head (Rust's `Vec::push`/`Vec::pop` act at the end of the vector). -/
structure Document where
  id : Nat
  path : Option String
  title : String
  text : List Char
  undo_stack : List (List Char)
  redo_stack : List (List Char)
  dirty : Bool
deriving DecidableEq

/-- `Document::new_untitled`. -/
def Document.new_untitled (id : Nat) : Document :=
  { id := id
    path := none
    title := "Безымянный " ++ Nat.repr id
    text := []
    undo_stack := []
    redo_stack := []
    dirty := false }

/-- The title `Document::from_file` derives: the last `/`-separated component
of the path (`Path::file_name` for ordinary file paths), with the same
fallback literal the source uses. -/
def baseName (p : String) : String :=
  (p.splitOn "/").getLastD "Документ"

/-- `Document::from_file`.  Reading the file is modelled by passing the
file's contents; the failing read propagates before any document exists, so
only the successful case produces a `Document`. -/
def Document.from_file (id : Nat) (p : String) (contents : List Char) : Document :=
  { id := id
    path := some p
    title := baseName p
    text := contents
    undo_stack := []
    redo_stack := []
    dirty := false }

/-- Outcome of a save operation: the updated document, the `io::Result`
success flag, and the writes attempted on the filesystem. -/
structure SaveOut where
  doc : Document
  ok : Bool
  writes : List (String × List Char)
deriving DecidableEq

/-- `Document::save`.  `fs::write(path, &self.text)` is modelled by the
`writeOk` oracle and the recorded write event; on failure the `?` operator
returns the error before `dirty` is cleared.  With no path the function
returns `Ok(())` having touched neither the document nor the filesystem. -/
def Document.save (d : Document) (writeOk : Bool) : SaveOut :=
  match d.path with
  | none => ⟨d, true, []⟩
  | some p =>
    if writeOk then ⟨{ d with dirty := false }, true, [(p, d.text)]⟩
    else ⟨d, false, [(p, d.text)]⟩

/-- `Document::save_as`: sets `path`, then delegates to `save`. -/
def Document.save_as (d : Document) (p : String) (writeOk : Bool) : SaveOut :=
  Document.save { d with path := some p } writeOk

/-- `Document::set_text`: a real change pushes the current text on the undo
stack, clears the redo stack, installs the new text and marks the document
dirty; an identical text is a no-op. -/
def Document.set_text (d : Document) (new_text : List Char) : Document :=
  if new_text ≠ d.text then
    { d with
      undo_stack := d.text :: d.undo_stack
      redo_stack := []
      text := new_text
      dirty := true }
  else d

/-- `Document::undo`. -/
def Document.undo (d : Document) : Document :=
  match d.undo_stack with
  | [] => d
  | prev :: rest =>
    { d with
      redo_stack := d.text :: d.redo_stack
      text := prev
      undo_stack := rest
      dirty := true }

/-- `Document::redo`. -/
def Document.redo (d : Document) : Document :=
  match d.redo_stack with
  | [] => d
  | next :: rest =>
    { d with
      undo_stack := d.text :: d.undo_stack
      text := next
      redo_stack := rest
      dirty := true }

/-- Does `needle` occur at the very front of `t`?  (`str::starts_with` on
character lists; the building block of Rust's substring scan.) -/
def leadsWith : List Char → List Char → Bool
  | [], _ => true
  | _ :: _, [] => false
  | a :: as, b :: bs => a == b && leadsWith as bs

/-- Worker for `matches(needle).count()`: a left-to-right scan that, at each
match of a non-empty needle, counts it and resumes after the matched span.
The scan consumes at least one character per step, so running it with
`fuel = t.length` (as `countMatches` below does) never exhausts the fuel;
the fuel only makes the recursion structural. -/
def scanCount (needle : List Char) : Nat → List Char → Nat
  | _, [] => 0
  | 0, _ :: _ => 0
  | fuel + 1, c :: rest =>
    if leadsWith needle (c :: rest) && !needle.isEmpty then
      1 + scanCount needle fuel (rest.drop (needle.length - 1))
    else
      scanCount needle fuel rest

/-- `self.text.matches(needle).count()` for a non-empty `needle`: the number
of non-overlapping occurrences found scanning left to right, skipping the
length of the needle after each match. -/
def countMatches (needle t : List Char) : Nat :=
  scanCount needle t.length t

/-- Worker for `str::replace`: same scan as `scanCount`, substituting `repl`
for each matched span.  Fuel as in `scanCount`. -/
def scanReplace (needle repl : List Char) : Nat → List Char → List Char
  | _, [] => []
  | 0, t => t
  | fuel + 1, c :: rest =>
    if leadsWith needle (c :: rest) && !needle.isEmpty then
      repl ++ scanReplace needle repl fuel (rest.drop (needle.length - 1))
    else
      c :: scanReplace needle repl fuel rest

/-- `str::replace(needle, repl)` for a non-empty `needle`: each
non-overlapping left-to-right occurrence is replaced, the scan resuming
after the matched span. -/
def replaceAllList (needle repl t : List Char) : List Char :=
  scanReplace needle repl t.length t

/-- `str::contains(needle)` on character lists. -/
def containsSub (needle : List Char) : List Char → Bool
  | [] => needle.isEmpty
  | c :: rest => leadsWith needle (c :: rest) || containsSub needle rest

/-- `Document::replace_all`: empty needle returns 0 immediately; otherwise
the occurrences are counted on the current text and, when positive, the
replacement result is installed through `set_text`. -/
def Document.replace_all (d : Document) (needle replacement : List Char) :
    Document × Nat :=
  if needle.isEmpty then (d, 0)
  else
    let count := countMatches needle d.text
    if count > 0 then (d.set_text (replaceAllList needle replacement d.text), count)
    else (d, count)

/-- `undo` iterated `n` times. -/
def undoN : Nat → Document → Document
  | 0, d => d
  | n + 1, d => undoN n d.undo

/-- `redo` iterated `n` times. -/
def redoN : Nat → Document → Document
  | 0, d => d
  | n + 1, d => redoN n d.redo

/-- A sequence of `set_text` calls, applied front to back. -/
def applyTexts : Document → List (List Char) → Document
  | d, [] => d
  | d, t :: ts => applyTexts (d.set_text t) ts

/-- One front-end operation on a single document: the mutating calls the GUI
layer makes on the active `Document`. -/
inductive DocOp where
  | edit (t : List Char)
  | undoOp
  | redoOp
  | saveOp (writeOk : Bool)
  | saveAsOp (p : String) (writeOk : Bool)
  | replaceOp (needle repl : List Char)

/-- A document paired with ghost state: the text content last successfully
persisted to its path, or the initial content when nothing has been written
yet.  Used to express dirtiness relative to the last save. -/
structure TrackedDoc where
  doc : Document
  baseline : List Char
deriving DecidableEq

/-- How each operation acts on a tracked document.  The baseline advances
exactly when a save succeeded and actually wrote to a path. -/
def stepDoc : TrackedDoc → DocOp → TrackedDoc
  | ⟨d, b⟩, .edit t => ⟨d.set_text t, b⟩
  | ⟨d, b⟩, .undoOp => ⟨d.undo, b⟩
  | ⟨d, b⟩, .redoOp => ⟨d.redo, b⟩
  | ⟨d, b⟩, .saveOp ok =>
    ⟨(d.save ok).doc,
      if (d.save ok).ok && !(d.save ok).writes.isEmpty then d.text else b⟩
  | ⟨d, b⟩, .saveAsOp p ok =>
    ⟨(d.save_as p ok).doc,
      if (d.save_as p ok).ok && !(d.save_as p ok).writes.isEmpty then d.text else b⟩
  | ⟨d, b⟩, .replaceOp needle repl => ⟨(d.replace_all needle repl).1, b⟩

/-- Tracked-document states reachable from document creation via front-end
operations. -/
inductive ReachesDoc : TrackedDoc → Prop
  | untitled (id : Nat) : ReachesDoc ⟨Document.new_untitled id, []⟩
  | loaded (id : Nat) (p : String) (contents : List Char) :
      ReachesDoc ⟨Document.from_file id p contents, contents⟩
  | step (s : TrackedDoc) (op : DocOp) : ReachesDoc s → ReachesDoc (stepDoc s op)

/-- Shallow embedding of the document-set state of `TextEditorApp`
(`app.rs`): the open documents, the active index and the id counter.  The
find/replace strings, font size, text colour and the autosave clock are
front-end presentation state; the clock's elapsed-interval test enters the
sweep below as the `due` flag. -/
structure TextEditorApp where
  docs : List Document
  active_doc : Nat
  next_doc_id : Nat
deriving DecidableEq

/-- `TextEditorApp::new`: one untitled document with id 1, active, next id 2. -/
def TextEditorApp.new : TextEditorApp :=
  { docs := [Document.new_untitled 1], active_doc := 0, next_doc_id := 2 }

/-- Menu action "Новый": push a fresh untitled document and activate it. -/
def TextEditorApp.newDocument (s : TextEditorApp) : TextEditorApp :=
  { s with
    docs := s.docs ++ [Document.new_untitled s.next_doc_id]
    active_doc := s.docs.length
    next_doc_id := s.next_doc_id + 1 }

/-- Menu action "Открыть..." when the file loads successfully: push the
loaded document and activate it (a failed load leaves the set unchanged). -/
def TextEditorApp.openDocument (s : TextEditorApp) (p : String)
    (contents : List Char) : TextEditorApp :=
  { s with
    docs := s.docs ++ [Document.from_file s.next_doc_id p contents]
    active_doc := s.docs.length
    next_doc_id := s.next_doc_id + 1 }

/-- Tab click in `tabs_bar`: the clicked index comes from enumerating the
tabs, so it is within bounds; out-of-range indices (never produced by the
GUI) are ignored. -/
def TextEditorApp.selectTab (s : TextEditorApp) (i : Nat) : TextEditorApp :=
  if i < s.docs.length then { s with active_doc := i } else s

/-- Close button in `tabs_bar`: honoured only while more than one tab exists
(`len > 1` guard at the click site); after removal the active index is
clamped onto the last tab when it fell off the end. -/
def TextEditorApp.closeTab (s : TextEditorApp) (i : Nat) : TextEditorApp :=
  if 1 < s.docs.length ∧ i < s.docs.length then
    { s with
      docs := s.docs.eraseIdx i
      active_doc :=
        if (s.docs.eraseIdx i).length ≤ s.active_doc then
          (s.docs.eraseIdx i).length - 1
        else s.active_doc }
  else s

/-- Any mutation of the active document through `current_doc_mut`
(`editor_area` edits, undo/redo menu, replace-all, manual save). -/
def TextEditorApp.modifyActive (s : TextEditorApp) (f : Document → Document) :
    TextEditorApp :=
  { s with
    docs := s.docs.set s.active_doc
      (f (s.docs.getD s.active_doc (Document.new_untitled 0))) }

/-- Per-document action of `handle_autosave`: a clean document is skipped; a
dirty document with a path is saved through `Document::save` (errors only
logged); a dirty untitled document is written to `autosave_<id>.txt` in the
current directory without touching the document, and skipped entirely when
`env::current_dir` fails (`curDir = none`). -/
def autosaveDoc (fsOk : String → Bool) (curDir : Option String)
    (d : Document) : Document × List (String × List Char) :=
  if !d.dirty then (d, [])
  else
    match d.path with
    | some p => ((d.save (fsOk p)).doc, (d.save (fsOk p)).writes)
    | none =>
      match curDir with
      | some dir =>
        (d, [(dir ++ "/" ++ ("autosave_" ++ Nat.repr d.id ++ ".txt"), d.text)])
      | none => (d, [])

/-- `TextEditorApp::handle_autosave`: when the autosave interval has elapsed
(`due`), sweep every document; per-document failures never abort the sweep. -/
def TextEditorApp.handle_autosave (s : TextEditorApp) (due : Bool)
    (fsOk : String → Bool) (curDir : Option String) :
    TextEditorApp × List (String × List Char) :=
  if due then
    ({ s with docs := s.docs.map (fun d => (autosaveDoc fsOk curDir d).1) },
      (s.docs.map (fun d => (autosaveDoc fsOk curDir d).2)).flatten)
  else (s, [])

/-- App states reachable from startup via the GUI-driven operations. -/
inductive ReachesApp : TextEditorApp → Prop
  | init : ReachesApp TextEditorApp.new
  | newDoc (s : TextEditorApp) : ReachesApp s → ReachesApp s.newDocument
  | openDoc (s : TextEditorApp) (p : String) (contents : List Char) :
      ReachesApp s → ReachesApp (s.openDocument p contents)
  | select (s : TextEditorApp) (i : Nat) : ReachesApp s → ReachesApp (s.selectTab i)
  | close (s : TextEditorApp) (i : Nat) : ReachesApp s → ReachesApp (s.closeTab i)
  | modify (s : TextEditorApp) (f : Document → Document) :
      ReachesApp s → ReachesApp (s.modifyActive f)
  | sweep (s : TextEditorApp) (due : Bool) (fsOk : String → Bool)
      (curDir : Option String) :
      ReachesApp s → ReachesApp (s.handle_autosave due fsOk curDir).1

/-- A one-document app state (a dirty untitled document with id 3) used to
exercise the autosave sweep on concrete input. -/
def sampleApp : TextEditorApp :=
  { docs := [{ Document.new_untitled 3 with dirty := true, text := ['h'] }]
    active_doc := 0
    next_doc_id := 4 }

lemma set_text_text (d : Document) (t : List Char) : (d.set_text t).text = t := by
  unfold Document.set_text
  split
  · rfl
  · next h =>
    simp only [ne_eq, not_not] at h
    exact h.symm

lemma redoN_succ (m : Nat) : ∀ x : Document, redoN (m + 1) x = (redoN m x).redo := by
  induction m with
  | zero => intro x; rfl
  | succ m ih =>
    intro x
    have h1 : redoN (m + 2) x = redoN (m + 1) x.redo := rfl
    rw [h1, ih x.redo]
    rfl

lemma undoN_congr (n : Nat) :
    ∀ d e : Document, d.text = e.text → d.undo_stack = e.undo_stack →
      (undoN n d).text = (undoN n e).text
      ∧ (undoN n d).undo_stack = (undoN n e).undo_stack := by
  induction n with
  | zero => intro d e h1 h2; exact ⟨h1, h2⟩
  | succ n ih =>
    intro d e h1 h2
    have step : d.undo.text = e.undo.text ∧ d.undo.undo_stack = e.undo.undo_stack := by
      cases hs : e.undo_stack with
      | nil => simp [Document.undo, h2, hs, h1]
      | cons p rest => simp [Document.undo, h2, hs]
    exact ih d.undo e.undo step.1 step.2

lemma applyTexts_append (l₁ : List (List Char)) :
    ∀ (d : Document) (l₂ : List (List Char)),
      applyTexts d (l₁ ++ l₂) = applyTexts (applyTexts d l₁) l₂ := by
  induction l₁ with
  | nil => intro d l₂; rfl
  | cons t ts ih => intro d l₂; simpa [applyTexts] using ih (d.set_text t) l₂

/-- The last element of a list, or `a` when the list is empty. -/
def lastOr {α : Type} : α → List α → α
  | a, [] => a
  | _, b :: l => lastOr b l

lemma applyTexts_text : ∀ (ts : List (List Char)) (d : Document),
    (applyTexts d ts).text = lastOr d.text ts := by
  intro ts
  induction ts with
  | nil => intro d; rfl
  | cons t ts ih =>
    intro d
    show (applyTexts (d.set_text t) ts).text = lastOr t ts
    rw [ih (d.set_text t), set_text_text]

lemma cons_getLast? {α : Type} (a : α) :
    ∀ l : List α, (a :: l).getLast? = some (lastOr a l) := by
  intro l
  induction l generalizing a with
  | nil => rfl
  | cons b l ih => rw [List.getLast?_cons_cons, ih b]; rfl

lemma applyTexts_undo_stack : ∀ (ts : List (List Char)) (d : Document),
    List.Chain' (· ≠ ·) (d.text :: ts) →
    (applyTexts d ts).undo_stack = (d.text :: ts).dropLast.reverse ++ d.undo_stack := by
  intro ts
  induction ts with
  | nil => intro d _; simp [applyTexts]
  | cons t ts ih =>
    intro d hchain
    rw [List.chain'_cons] at hchain
    have hne : t ≠ d.text := fun h => hchain.1 h.symm
    have hset : d.set_text t =
        { d with
          undo_stack := d.text :: d.undo_stack
          redo_stack := []
          text := t
          dirty := true } := by
      simp [Document.set_text, hne]
    have := ih (d.set_text t) (by rw [hset]; exact hchain.2)
    rw [applyTexts, this, hset]
    simp [List.dropLast_cons₂]

lemma applyTexts_dirty : ∀ (ts : List (List Char)) (d : Document), ts ≠ [] →
    List.Chain' (· ≠ ·) (d.text :: ts) → (applyTexts d ts).dirty = true := by
  intro ts
  induction ts with
  | nil => intro d h _; exact absurd rfl h
  | cons t ts ih =>
    intro d _ hchain
    rw [List.chain'_cons] at hchain
    have hne : t ≠ d.text := fun h => hchain.1 h.symm
    have hset : d.set_text t =
        { d with
          undo_stack := d.text :: d.undo_stack
          redo_stack := []
          text := t
          dirty := true } := by
      simp [Document.set_text, hne]
    cases hts : ts with
    | nil =>
      subst hts
      show (d.set_text t).dirty = true
      rw [hset]
    | cons u us =>
      subst hts
      show (applyTexts (d.set_text t) (u :: us)).dirty = true
      exact ih (d.set_text t) (by simp) (by rw [hset]; exact hchain.2)

lemma undoN_applyTexts :
    ∀ (ts : List (List Char)) (d : Document) (n : Nat),
      List.Chain' (· ≠ ·) (d.text :: ts) → n ≤ ts.length →
      (undoN n (applyTexts d ts)).text
        = (applyTexts d (ts.take (ts.length - n))).text := by
  intro ts
  induction ts using List.reverseRecOn with
  | nil =>
    intro d n _ hn
    have : n = 0 := Nat.le_zero.mp hn
    subst this
    rfl
  | append_singleton ts t ih =>
    intro d n hchain hn
    rw [← List.cons_append] at hchain
    have hparts := List.chain'_append.mp hchain
    have h1 : List.Chain' (· ≠ ·) (d.text :: ts) := hparts.1
    have hlastne : lastOr d.text ts ≠ t := by
      have := hparts.2.2 (lastOr d.text ts) (by simp [cons_getLast?]) t (by simp)
      exact this
    cases n with
    | zero =>
      rw [show (ts ++ [t]).length - 0 = (ts ++ [t]).length by omega, List.take_length]
      rfl
    | succ m =>
      have hm : m ≤ ts.length := by
        have := hn
        simp at this
        omega
      have hP : applyTexts d (ts ++ [t]) = (applyTexts d ts).set_text t := by
        rw [applyTexts_append ts d [t]]
        rfl
      have hPtext : (applyTexts d ts).text = lastOr d.text ts := applyTexts_text ts d
      have hne : t ≠ (applyTexts d ts).text := by
        rw [hPtext]; exact fun h => hlastne h.symm
      have hset : (applyTexts d ts).set_text t =
          { applyTexts d ts with
            undo_stack := (applyTexts d ts).text :: (applyTexts d ts).undo_stack
            redo_stack := []
            text := t
            dirty := true } := by
        simp [Document.set_text, hne]
      have hundo : ((applyTexts d ts).set_text t).undo =
          { applyTexts d ts with
            undo_stack := (applyTexts d ts).undo_stack
            redo_stack := [t]
            text := (applyTexts d ts).text
            dirty := true } := by
        rw [hset]; simp [Document.undo]
      have hcong := undoN_congr m (((applyTexts d ts).set_text t).undo)
        (applyTexts d ts) (by rw [hundo]) (by rw [hundo])
      have hstep : undoN (m + 1) (applyTexts d (ts ++ [t]))
          = undoN m (((applyTexts d ts).set_text t).undo) := by
        rw [hP]; rfl
      have htake : (ts ++ [t]).take ((ts ++ [t]).length - (m + 1)) =
          ts.take (ts.length - m) := by
        have hle : ts.length - m ≤ ts.length := Nat.sub_le _ _
        have hlen : (ts ++ [t]).length - (m + 1) = ts.length - m := by
          simp
        rw [hlen, List.take_append_of_le_length hle]
      rw [hstep, htake]
      calc (undoN m (((applyTexts d ts).set_text t).undo)).text
          = (undoN m (applyTexts d ts)).text := hcong.1
        _ = (applyTexts d (ts.take (ts.length - m))).text := ih d m h1 hm

lemma redoN_undoN : ∀ (n : Nat) (d : Document), d.dirty = true →
    n ≤ d.undo_stack.length → redoN n (undoN n d) = d := by
  intro n
  induction n with
  | zero => intro d _ _; rfl
  | succ m ih =>
    intro d hd hn
    cases hs : d.undo_stack with
    | nil => rw [hs] at hn; simp at hn
    | cons p rest =>
      have hundo : d.undo =
          { d with
            redo_stack := d.text :: d.redo_stack
            text := p
            undo_stack := rest
            dirty := true } := by
        simp [Document.undo, hs]
      have h1 : undoN (m + 1) d = undoN m d.undo := rfl
      rw [h1, redoN_succ]
      have hlen : m ≤ d.undo.undo_stack.length := by
        rw [hundo]
        show m ≤ rest.length
        rw [hs] at hn
        simp only [List.length_cons] at hn
        omega
      have ihx := ih d.undo (by rw [hundo]) hlen
      rw [ihx, hundo]
      simp [Document.redo]
      cases d
      simp_all

lemma leadsWith_length : ∀ (n t : List Char), leadsWith n t = true → n.length ≤ t.length := by
  intro n
  induction n with
  | nil => intro t _; simp
  | cons a as ih =>
    intro t h
    cases t with
    | nil => simp [leadsWith] at h
    | cons b bs =>
      simp only [leadsWith, Bool.and_eq_true, beq_iff_eq] at h
      simpa using ih bs h.2

lemma leadsWith_take : ∀ (n t : List Char), leadsWith n t = true → t.take n.length = n := by
  intro n
  induction n with
  | nil => intro t _; simp
  | cons a as ih =>
    intro t h
    cases t with
    | nil => simp [leadsWith] at h
    | cons b bs =>
      simp only [leadsWith, Bool.and_eq_true, beq_iff_eq] at h
      simp only [List.length_cons, List.take_succ_cons]
      rw [ih bs h.2, h.1]

lemma leadsWith_refl : ∀ l : List Char, leadsWith l l = true := by
  intro l
  induction l with
  | nil => rfl
  | cons a as ih => simp [leadsWith, ih]

lemma repl_ne_needle (needle repl : List Char) (hne : needle ≠ [])
    (hnc : containsSub needle repl = false) : repl ≠ needle := by
  intro h
  rw [h] at hnc
  cases hn : needle with
  | nil => exact hne hn
  | cons c rest =>
    rw [hn] at hnc
    simp [containsSub, leadsWith_refl] at hnc

lemma scan_len (needle repl : List Char) :
    ∀ (fuel : Nat) (t : List Char), t.length ≤ fuel →
      (scanReplace needle repl fuel t).length + scanCount needle fuel t * needle.length
        = t.length + scanCount needle fuel t * repl.length := by
  intro fuel
  induction fuel with
  | zero =>
    intro t ht
    have ht0 : t = [] := List.eq_nil_of_length_eq_zero (Nat.le_zero.mp ht)
    subst ht0
    simp [scanReplace, scanCount]
  | succ fuel ih =>
    intro t ht
    cases t with
    | nil => simp [scanReplace, scanCount]
    | cons c rest =>
      have hunfC : scanCount needle (fuel + 1) (c :: rest) =
          if leadsWith needle (c :: rest) && !needle.isEmpty then
            1 + scanCount needle fuel (rest.drop (needle.length - 1))
          else scanCount needle fuel rest := rfl
      have hunfR : scanReplace needle repl (fuel + 1) (c :: rest) =
          if leadsWith needle (c :: rest) && !needle.isEmpty then
            repl ++ scanReplace needle repl fuel (rest.drop (needle.length - 1))
          else c :: scanReplace needle repl fuel rest := rfl
      rw [hunfC, hunfR]
      by_cases h : (leadsWith needle (c :: rest) && !needle.isEmpty) = true
      · rw [if_pos h, if_pos h]
        have hlw : leadsWith needle (c :: rest) = true := by
          simp only [Bool.and_eq_true] at h; exact h.1
        have hkpos : 1 ≤ needle.length := by
          cases hn : needle with
          | nil => rw [hn] at h; simp at h
          | cons _ _ => simp [hn]
        have hlen := leadsWith_length needle (c :: rest) hlw
        simp only [List.length_cons] at hlen ht
        have hdl : (rest.drop (needle.length - 1)).length
            = rest.length - (needle.length - 1) := by
          rw [List.length_drop]
        have hfuel : (rest.drop (needle.length - 1)).length ≤ fuel := by
          rw [hdl]; omega
        have hrec := ih (rest.drop (needle.length - 1)) hfuel
        rw [hdl] at hrec
        simp only [List.length_append, List.length_cons]
        rw [Nat.add_mul, Nat.add_mul, Nat.one_mul, Nat.one_mul]
        generalize scanCount needle fuel (rest.drop (needle.length - 1)) * needle.length = A at hrec ⊢
        generalize scanCount needle fuel (rest.drop (needle.length - 1)) * repl.length = B at hrec ⊢
        omega
      · rw [if_neg h, if_neg h]
        have hfuel : rest.length ≤ fuel := by
          simp only [List.length_cons] at ht; omega
        have hrec := ih rest hfuel
        simp only [List.length_cons]
        generalize scanCount needle fuel rest * needle.length = A at hrec ⊢
        generalize scanCount needle fuel rest * repl.length = B at hrec ⊢
        omega

lemma scan_ne_same_len (needle repl : List Char)
    (hlen : repl.length = needle.length) (hrn : repl ≠ needle) :
    ∀ (fuel : Nat) (t : List Char), t.length ≤ fuel → 0 < scanCount needle fuel t →
      scanReplace needle repl fuel t ≠ t := by
  intro fuel
  induction fuel with
  | zero =>
    intro t ht hc
    have ht0 : t = [] := List.eq_nil_of_length_eq_zero (Nat.le_zero.mp ht)
    subst ht0
    simp [scanCount] at hc
  | succ fuel ih =>
    intro t ht hc
    cases t with
    | nil => simp [scanCount] at hc
    | cons c rest =>
      have hunfC : scanCount needle (fuel + 1) (c :: rest) =
          if leadsWith needle (c :: rest) && !needle.isEmpty then
            1 + scanCount needle fuel (rest.drop (needle.length - 1))
          else scanCount needle fuel rest := rfl
      have hunfR : scanReplace needle repl (fuel + 1) (c :: rest) =
          if leadsWith needle (c :: rest) && !needle.isEmpty then
            repl ++ scanReplace needle repl fuel (rest.drop (needle.length - 1))
          else c :: scanReplace needle repl fuel rest := rfl
      rw [hunfR]
      by_cases h : (leadsWith needle (c :: rest) && !needle.isEmpty) = true
      · rw [if_pos h]
        intro heq
        have hlw : leadsWith needle (c :: rest) = true := by
          simp only [Bool.and_eq_true] at h; exact h.1
        have htake := leadsWith_take needle (c :: rest) hlw
        have hrepl : (c :: rest).take repl.length = repl := by
          rw [← heq]
          exact List.take_left _ _
        rw [hlen, htake] at hrepl
        exact hrn hrepl.symm
      · rw [if_neg h]
        rw [hunfC, if_neg h] at hc
        have hfuel : rest.length ≤ fuel := by
          simp only [List.length_cons] at ht; omega
        intro heq
        injection heq with _ h2
        exact ih rest hfuel hc h2

lemma replace_len (needle repl t : List Char) :
    (replaceAllList needle repl t).length + countMatches needle t * needle.length
      = t.length + countMatches needle t * repl.length :=
  scan_len needle repl t.length t le_rfl

lemma replace_ne (needle repl : List Char) (hrn : repl ≠ needle)
    (t : List Char) (hc : 0 < countMatches needle t) :
    replaceAllList needle repl t ≠ t := by
  by_cases hlen : repl.length = needle.length
  · exact scan_ne_same_len needle repl hlen hrn t.length t le_rfl hc
  · intro heq
    have h1 := replace_len needle repl t
    rw [heq] at h1
    have h2 : countMatches needle t * needle.length
        = countMatches needle t * repl.length := Nat.add_left_cancel h1
    exact hlen (Nat.eq_of_mul_eq_mul_left hc h2).symm

/-- Claim C1: for a sequence of `set_text` calls with chained-distinct values,
`undo` iterated `n` times brings the buffer back to its value `n` edits
earlier, `redo` iterated the same number of times restores the latest text,
and a pop from either history stack always pushes the pre-transition text onto
the opposite stack first. -/
theorem undo_redo_inverse (d : Document) (ts : List (List Char)) (n : Nat)
    (hchain : List.Chain' (· ≠ ·) (d.text :: ts)) (hn : n ≤ ts.length) :
    (undoN n (applyTexts d ts)).text
      = (applyTexts d (ts.take (ts.length - n))).text
    ∧ (redoN n (undoN n (applyTexts d ts))).text = (applyTexts d ts).text
    ∧ (∀ e : Document, e.undo_stack ≠ [] →
        e.undo.redo_stack = e.text :: e.redo_stack)
    ∧ (∀ e : Document, e.redo_stack ≠ [] →
        e.redo.undo_stack = e.text :: e.undo_stack) := by
  refine ⟨undoN_applyTexts ts d n hchain hn, ?_, ?_, ?_⟩
  · cases n with
    | zero => rfl
    | succ m =>
      have hts : ts ≠ [] := by
        intro h; subst h; simp at hn
      have hdirty := applyTexts_dirty ts d hts hchain
      have hlen : m + 1 ≤ (applyTexts d ts).undo_stack.length := by
        rw [applyTexts_undo_stack ts d hchain]
        simp only [List.length_append, List.length_reverse, List.length_dropLast,
          List.length_cons]
        omega
      rw [redoN_undoN (m + 1) (applyTexts d ts) hdirty hlen]
  · intro e he
    cases hs : e.undo_stack with
    | nil => exact absurd hs he
    | cons p rest => simp [Document.undo, hs]
  · intro e he
    cases hs : e.redo_stack with
    | nil => exact absurd hs he
    | cons p rest => simp [Document.redo, hs]

/-- Witness for C1 at a concrete input: two edits, two undos, two redos. -/
theorem undo_redo_inverse_witness :
    List.Chain' (· ≠ ·) ((Document.new_untitled 1).text :: [['a'], ['b']])
    ∧ 2 ≤ ([['a'], ['b']] : List (List Char)).length
    ∧ ((undoN 2 (applyTexts (Document.new_untitled 1) [['a'], ['b']])).text
        = (applyTexts (Document.new_untitled 1)
            (([['a'], ['b']] : List (List Char)).take
              (([['a'], ['b']] : List (List Char)).length - 2))).text
      ∧ (redoN 2 (undoN 2 (applyTexts (Document.new_untitled 1) [['a'], ['b']]))).text
          = (applyTexts (Document.new_untitled 1) [['a'], ['b']]).text
      ∧ (∀ e : Document, e.undo_stack ≠ [] →
          e.undo.redo_stack = e.text :: e.redo_stack)
      ∧ (∀ e : Document, e.redo_stack ≠ [] →
          e.redo.undo_stack = e.text :: e.undo_stack)) :=
  ⟨by simp [List.chain'_cons, Document.new_untitled], by decide,
    undo_redo_inverse (Document.new_untitled 1) [['a'], ['b']] 2
      (by simp [List.chain'_cons, Document.new_untitled]) (by decide)⟩

/-- Claim C2: `set_text` with a different text pushes the old text, clears the
redo stack, installs the new text and sets `dirty`; with an identical text it
changes nothing at all. -/
theorem set_text_cases (d : Document) (t : List Char) :
    (t ≠ d.text →
      d.set_text t =
        { d with
          undo_stack := d.text :: d.undo_stack
          redo_stack := []
          text := t
          dirty := true })
    ∧ (t = d.text → d.set_text t = d) := by
  constructor
  · intro h
    simp [Document.set_text, h]
  · intro h
    simp [Document.set_text, h]

/-- Witness for C2 at a concrete input. -/
theorem set_text_cases_witness :
    (['a'] ≠ (Document.new_untitled 1).text)
    ∧ (Document.new_untitled 1).set_text ['a'] =
        { Document.new_untitled 1 with
          undo_stack := [(Document.new_untitled 1).text]
          redo_stack := []
          text := ['a']
          dirty := true } := by
  refine ⟨by decide, ?_⟩
  have h := (set_text_cases (Document.new_untitled 1) ['a']).1 (by decide)
  simpa using h

/-- Claim C6: saving a document with no path is a successful no-op: the
document is returned unchanged and no filesystem write is attempted. -/
theorem save_no_path (d : Document) (writeOk : Bool) (h : d.path = none) :
    d.save writeOk = ⟨d, true, []⟩ := by
  simp [Document.save, h]

/-- Witness for C6 at a concrete input. -/
theorem save_no_path_witness :
    (Document.new_untitled 1).path = none
    ∧ (Document.new_untitled 1).save false = ⟨Document.new_untitled 1, true, []⟩ :=
  ⟨rfl, save_no_path (Document.new_untitled 1) false rfl⟩

/-- Claim C7: a successful `save_as p` leaves `path = some p`, `dirty = false`,
and the single write performed carries the document's full current text. -/
theorem save_as_success (d : Document) (p : String) :
    (d.save_as p true).doc.path = some p
    ∧ (d.save_as p true).doc.dirty = false
    ∧ (d.save_as p true).ok = true
    ∧ (d.save_as p true).writes = [(p, d.text)] := by
  simp [Document.save_as, Document.save]

/-- Claim C8: a failed write during `save` or `save_as` on a dirty document
returns the error to the caller and leaves the in-memory buffer unchanged and
the document still dirty.  `save` can only fail when a path is present (with
no path it is a successful no-op), so its conjunct assumes one; `save_as`
fails on any document, pathless ones included, and its conjunct holds for
every document. -/
theorem save_failure_preserves_buffer (d : Document) (p q : String)
    (hdirty : d.dirty = true) :
    (d.path = some p →
      (d.save false).ok = false
      ∧ (d.save false).doc.dirty = true
      ∧ (d.save false).doc.text = d.text)
    ∧ ((d.save_as q false).ok = false
      ∧ (d.save_as q false).doc.dirty = true
      ∧ (d.save_as q false).doc.text = d.text) := by
  refine ⟨?_, ?_⟩
  · intro hpath
    simp [Document.save, hpath, hdirty]
  · simp [Document.save_as, Document.save, hdirty]

/-- Witness for C8 at concrete inputs: a dirty document with a path for the
`save` half, and a dirty untitled document for the `save_as` half. -/
theorem save_failure_preserves_buffer_witness :
    ({ Document.from_file 1 "f" ['a'] with dirty := true }.dirty = true
      ∧ { Document.from_file 1 "f" ['a'] with dirty := true }.path = some "f"
      ∧ { Document.new_untitled 2 with dirty := true }.dirty = true)
    ∧ (({ Document.from_file 1 "f" ['a'] with dirty := true }.save false).ok = false
      ∧ ({ Document.from_file 1 "f" ['a'] with dirty := true }.save false).doc.dirty = true
      ∧ ({ Document.from_file 1 "f" ['a'] with dirty := true }.save false).doc.text
          = { Document.from_file 1 "f" ['a'] with dirty := true }.text)
    ∧ (({ Document.new_untitled 2 with dirty := true }.save_as "g" false).ok = false
      ∧ ({ Document.new_untitled 2 with dirty := true }.save_as "g" false).doc.dirty = true
      ∧ ({ Document.new_untitled 2 with dirty := true }.save_as "g" false).doc.text
          = { Document.new_untitled 2 with dirty := true }.text) := by
  refine ⟨⟨rfl, rfl, rfl⟩, ?_, ?_⟩
  · exact (save_failure_preserves_buffer
      { Document.from_file 1 "f" ['a'] with dirty := true } "f" "g" rfl).1 rfl
  · exact (save_failure_preserves_buffer
      { Document.new_untitled 2 with dirty := true } "f" "g" rfl).2

/-- Claim C10: when the write of `save_as p` fails, the error is returned but
the `path` field has already been updated to `some p`: the path change is not
rolled back. -/
theorem save_as_failure_path_updated (d : Document) (p : String) :
    (d.save_as p false).ok = false
    ∧ (d.save_as p false).doc.path = some p := by
  simp [Document.save_as, Document.save]

/-- Claim C3 (amended): `replace_all` with an empty needle returns 0 and
changes nothing; with a non-empty needle it returns the number of
non-overlapping left-to-right occurrences counted in the pre-replacement
text, and — when the count is positive and the replacement does not contain
the needle — it installs the scan's replacement result through `set_text` as
one atomic edit: the pre-replacement text becomes the single new undo entry,
the redo stack is cleared and `dirty` is set.  (The resulting text may still
contain the needle: new occurrences can form at replacement boundaries.) -/
theorem replace_all_spec (d : Document) (needle repl : List Char) :
    (needle = [] → d.replace_all needle repl = (d, 0))
    ∧ (needle ≠ [] → (d.replace_all needle repl).2 = countMatches needle d.text)
    ∧ (needle ≠ [] → countMatches needle d.text = 0 →
        d.replace_all needle repl = (d, 0))
    ∧ (needle ≠ [] → containsSub needle repl = false →
        0 < countMatches needle d.text →
        (d.replace_all needle repl).1 =
          { d with
            undo_stack := d.text :: d.undo_stack
            redo_stack := []
            text := replaceAllList needle repl d.text
            dirty := true }) := by
  refine ⟨?_, ?_, ?_, ?_⟩
  · intro h
    subst h
    simp [Document.replace_all]
  · intro h
    have hE : needle.isEmpty = false := by
      cases needle with
      | nil => exact absurd rfl h
      | cons a l => rfl
    simp only [Document.replace_all, hE, Bool.false_eq_true, if_false]
    split <;> rfl
  · intro h h0
    have hE : needle.isEmpty = false := by
      cases needle with
      | nil => exact absurd rfl h
      | cons a l => rfl
    simp [Document.replace_all, hE, h0]
  · intro h hnc hpos
    have hE : needle.isEmpty = false := by
      cases needle with
      | nil => exact absurd rfl h
      | cons a l => rfl
    have hrn : repl ≠ needle := repl_ne_needle needle repl h hnc
    have hneq : replaceAllList needle repl d.text ≠ d.text :=
      replace_ne needle repl hrn d.text hpos
    simp only [Document.replace_all, hE, Bool.false_eq_true, if_false]
    rw [if_pos hpos]
    simp [Document.set_text, hneq]

/-- Witness for C3 at a concrete input: `"foo bar foo"` with needle `"foo"`
and replacement `"baz"`. -/
theorem replace_all_spec_witness :
    (("foo".toList : List Char) ≠ []
      ∧ containsSub "foo".toList "baz".toList = false
      ∧ 0 < countMatches "foo".toList
          { Document.new_untitled 1 with text := "foo bar foo".toList }.text)
    ∧ ({ Document.new_untitled 1 with
          text := "foo bar foo".toList }.replace_all "foo".toList "baz".toList).1 =
        { { Document.new_untitled 1 with text := "foo bar foo".toList } with
          undo_stack := ["foo bar foo".toList]
          redo_stack := []
          text := replaceAllList "foo".toList "baz".toList "foo bar foo".toList
          dirty := true } := by
  refine ⟨⟨by decide, by decide, by decide⟩, ?_⟩
  have h := (replace_all_spec
    { Document.new_untitled 1 with text := "foo bar foo".toList }
    "foo".toList "baz".toList).2.2.2 (by decide) (by decide) (by decide)
  simpa using h

/-- Claim C3 as stated is false on the code: with text `"aabb"`, needle
`"ab"` and replacement `"a"`, the replacement does not contain the needle,
`replace_all` returns 1, yet the resulting text `"aab"` still contains the
needle — a fresh occurrence forms at the replacement boundary. -/
theorem replace_all_occurrence_survives :
    (("ab".toList : List Char) ≠ []
      ∧ containsSub "ab".toList "a".toList = false)
    ∧ ({ Document.new_untitled 1 with
          text := "aabb".toList }.replace_all "ab".toList "a".toList).2 = 1
    ∧ ({ Document.new_untitled 1 with
          text := "aabb".toList }.replace_all "ab".toList "a".toList).1.text
        = "aab".toList
    ∧ containsSub "ab".toList
        ({ Document.new_untitled 1 with
          text := "aabb".toList }.replace_all "ab".toList "a".toList).1.text
        = true := by
  refine ⟨⟨by decide, by decide⟩, by decide, by decide, by decide⟩

lemma set_text_of_dirty_false (d : Document) (t : List Char)
    (h : (d.set_text t).dirty = false) : d.set_text t = d := by
  by_cases ht : t ≠ d.text
  · exfalso
    simp [Document.set_text, ht] at h
  · simp only [ne_eq, not_not] at ht
    simp [Document.set_text, ht]

lemma undo_of_dirty_false (d : Document) (h : d.undo.dirty = false) :
    d.undo = d := by
  cases hs : d.undo_stack with
  | nil => simp [Document.undo, hs]
  | cons p rest =>
    exfalso
    simp [Document.undo, hs] at h

lemma redo_of_dirty_false (d : Document) (h : d.redo.dirty = false) :
    d.redo = d := by
  cases hs : d.redo_stack with
  | nil => simp [Document.redo, hs]
  | cons p rest =>
    exfalso
    simp [Document.redo, hs] at h

lemma replace_all_shape (d : Document) (needle repl : List Char) :
    (d.replace_all needle repl).1 = d
    ∨ ∃ r, (d.replace_all needle repl).1 = d.set_text r := by
  unfold Document.replace_all
  by_cases hE : needle.isEmpty = true
  · left; simp [hE]
  · have hE' : needle.isEmpty = false := by
      revert hE; cases needle.isEmpty <;> simp
    simp only [hE', Bool.false_eq_true, if_false]
    by_cases hc : 0 < countMatches needle d.text
    · right
      exact ⟨replaceAllList needle repl d.text, by rw [if_pos hc]⟩
    · left
      rw [if_neg hc]

/-- Claim C4 (amended): along every reachable history, `dirty = false`
guarantees that the buffer equals the content last persisted to the
document's path (or the initial content when never saved).  The converse
direction of the claim fails: see `dirty_overapprox_counterexample`. -/
theorem dirty_false_implies_saved (s : TrackedDoc) (hs : ReachesDoc s)
    (hd : s.doc.dirty = false) : s.doc.text = s.baseline := by
  induction hs with
  | untitled id => rfl
  | loaded id p contents => rfl
  | step s op hr ih =>
    obtain ⟨d, b⟩ := s
    cases op with
    | edit t =>
      have hx : (d.set_text t).dirty = false := hd
      have heq := set_text_of_dirty_false d t hx
      show (d.set_text t).text = b
      rw [heq]
      rw [heq] at hx
      exact ih hx
    | undoOp =>
      have hx : d.undo.dirty = false := hd
      have heq := undo_of_dirty_false d hx
      show d.undo.text = b
      rw [heq]
      rw [heq] at hx
      exact ih hx
    | redoOp =>
      have hx : d.redo.dirty = false := hd
      have heq := redo_of_dirty_false d hx
      show d.redo.text = b
      rw [heq]
      rw [heq] at hx
      exact ih hx
    | saveOp ok =>
      cases hp : d.path with
      | none =>
        have hsave : d.save ok = ⟨d, true, []⟩ := by simp [Document.save, hp]
        show (d.save ok).doc.text
          = (if (d.save ok).ok && !(d.save ok).writes.isEmpty then d.text else b)
        rw [hsave]
        simp only [List.isEmpty_nil, Bool.not_true, Bool.and_false,
          Bool.false_eq_true, if_false]
        refine ih ?_
        have hx : (d.save ok).doc.dirty = false := hd
        rw [hsave] at hx
        exact hx
      | some p =>
        cases ok with
        | true =>
          have hsave : d.save true = ⟨{ d with dirty := false }, true, [(p, d.text)]⟩ := by
            simp [Document.save, hp]
          show (d.save true).doc.text
            = (if (d.save true).ok && !(d.save true).writes.isEmpty then d.text else b)
          rw [hsave]
          simp
        | false =>
          have hsave : d.save false = ⟨d, false, [(p, d.text)]⟩ := by
            simp [Document.save, hp]
          show (d.save false).doc.text
            = (if (d.save false).ok && !(d.save false).writes.isEmpty then d.text else b)
          rw [hsave]
          simp only [Bool.false_and, Bool.false_eq_true, if_false]
          refine ih ?_
          have hx : (d.save false).doc.dirty = false := hd
          rw [hsave] at hx
          exact hx
    | saveAsOp p ok =>
      cases ok with
      | true =>
        have hsave : d.save_as p true
            = ⟨{ d with path := some p, dirty := false }, true, [(p, d.text)]⟩ := by
          simp [Document.save_as, Document.save]
        show (d.save_as p true).doc.text
          = (if (d.save_as p true).ok && !(d.save_as p true).writes.isEmpty
              then d.text else b)
        rw [hsave]
        simp
      | false =>
        have hsave : d.save_as p false
            = ⟨{ d with path := some p }, false, [(p, d.text)]⟩ := by
          simp [Document.save_as, Document.save]
        show (d.save_as p false).doc.text
          = (if (d.save_as p false).ok && !(d.save_as p false).writes.isEmpty
              then d.text else b)
        rw [hsave]
        simp only [Bool.false_and, Bool.false_eq_true, if_false]
        refine ih ?_
        have hx : (d.save_as p false).doc.dirty = false := hd
        rw [hsave] at hx
        exact hx
    | replaceOp needle repl =>
      rcases replace_all_shape d needle repl with h | ⟨r, h⟩
      · show (d.replace_all needle repl).1.text = b
        rw [h]
        refine ih ?_
        have hx : (d.replace_all needle repl).1.dirty = false := hd
        rw [h] at hx
        exact hx
      · have hx : (d.replace_all needle repl).1.dirty = false := hd
        rw [h] at hx
        have heq := set_text_of_dirty_false d r hx
        show (d.replace_all needle repl).1.text = b
        rw [h, heq]
        refine ih ?_
        rw [heq] at hx
        exact hx

/-- Witness for C4 (amended) at a concrete input: a fresh untitled document
is clean and its buffer equals its (empty) baseline. -/
theorem dirty_false_implies_saved_witness :
    (ReachesDoc ⟨Document.new_untitled 1, []⟩
      ∧ (Document.new_untitled 1).dirty = false)
    ∧ (Document.new_untitled 1).text = ([] : List Char) :=
  ⟨⟨ReachesDoc.untitled 1, rfl⟩,
    dirty_false_implies_saved ⟨Document.new_untitled 1, []⟩
      (ReachesDoc.untitled 1) rfl⟩

/-- Claim C4 as stated is false on the code: load `"a"` from a file (clean,
baseline `"a"`), edit to `"b"`, then undo.  The buffer is back to the
last-saved content `"a"`, yet `undo` set `dirty = true`, so `dirty` is not
equivalent to "has unsaved changes". -/
theorem dirty_overapprox_counterexample :
    ReachesDoc ⟨((Document.from_file 1 "f" ['a']).set_text ['b']).undo, ['a']⟩
    ∧ (((Document.from_file 1 "f" ['a']).set_text ['b']).undo).text = ['a']
    ∧ (((Document.from_file 1 "f" ['a']).set_text ['b']).undo).dirty = true := by
  refine ⟨?_, by decide, by decide⟩
  have h0 := ReachesDoc.loaded 1 "f" ['a']
  have h1 := ReachesDoc.step _ (DocOp.edit ['b']) h0
  have h2 := ReachesDoc.step _ DocOp.undoOp h1
  exact h2

lemma closeTab_single (s : TextEditorApp) (h : s.docs.length = 1) (i : Nat) :
    s.closeTab i = s := by
  have hng : ¬ (1 < s.docs.length ∧ i < s.docs.length) := by
    intro hc
    obtain ⟨h1, _⟩ := hc
    omega
  simp [TextEditorApp.closeTab, hng]

lemma closeTab_active_valid (s : TextEditorApp)
    (hinv : s.active_doc < s.docs.length) (i : Nat) :
    (s.closeTab i).active_doc < (s.closeTab i).docs.length := by
  unfold TextEditorApp.closeTab
  by_cases hc : 1 < s.docs.length ∧ i < s.docs.length
  · rw [if_pos hc]
    have hlen : (s.docs.eraseIdx i).length = s.docs.length - 1 := by
      rw [List.length_eraseIdx]
      simp [hc.2]
    show (if (s.docs.eraseIdx i).length ≤ s.active_doc then
        (s.docs.eraseIdx i).length - 1 else s.active_doc) < (s.docs.eraseIdx i).length
    by_cases hcl : (s.docs.eraseIdx i).length ≤ s.active_doc
    · rw [if_pos hcl]
      omega
    · rw [if_neg hcl]
      omega
  · rw [if_neg hc]
    exact hinv

lemma reaches_app_invariant (s : TextEditorApp) (hs : ReachesApp s) :
    s.docs ≠ [] ∧ s.active_doc < s.docs.length := by
  induction hs with
  | init => exact ⟨by simp [TextEditorApp.new], by simp [TextEditorApp.new]⟩
  | newDoc s hr ih =>
    refine ⟨by simp [TextEditorApp.newDocument], ?_⟩
    show s.docs.length < (s.docs ++ [Document.new_untitled s.next_doc_id]).length
    simp
  | openDoc s p contents hr ih =>
    refine ⟨by simp [TextEditorApp.openDocument], ?_⟩
    show s.docs.length
      < (s.docs ++ [Document.from_file s.next_doc_id p contents]).length
    simp
  | select s i hr ih =>
    unfold TextEditorApp.selectTab
    split
    · next h => exact ⟨ih.1, h⟩
    · exact ih
  | close s i hr ih =>
    constructor
    · unfold TextEditorApp.closeTab
      by_cases hc : 1 < s.docs.length ∧ i < s.docs.length
      · rw [if_pos hc]
        show s.docs.eraseIdx i ≠ []
        have hlen : (s.docs.eraseIdx i).length = s.docs.length - 1 := by
          rw [List.length_eraseIdx]
          simp [hc.2]
        intro hnil
        rw [hnil] at hlen
        simp at hlen
        omega
      · rw [if_neg hc]
        exact ih.1
    · exact closeTab_active_valid s ih.2 i
  | modify s f hr ih =>
    constructor
    · show s.docs.set s.active_doc _ ≠ []
      intro hnil
      have hlen := congrArg List.length hnil
      rw [List.length_set] at hlen
      exact ih.1 (List.eq_nil_of_length_eq_zero hlen)
    · show s.active_doc < (s.docs.set s.active_doc _).length
      rw [List.length_set]
      exact ih.2
  | sweep s due fsOk curDir hr ih =>
    cases due with
    | true =>
      constructor
      · show s.docs.map _ ≠ []
        intro hnil
        exact ih.1 (List.map_eq_nil_iff.mp hnil)
      · show s.active_doc < (s.docs.map _).length
        rw [List.length_map]
        exact ih.2
    | false => exact ih

/-- Claim C5: every reachable app state has a non-empty document list with a
valid active index; a close click while a single tab is open leaves the state
unchanged, and after any close the active index is still valid. -/
theorem document_set_invariant (s : TextEditorApp) (hs : ReachesApp s) :
    (s.docs ≠ [] ∧ s.active_doc < s.docs.length)
    ∧ (s.docs.length = 1 → ∀ i, s.closeTab i = s)
    ∧ (∀ i, (s.closeTab i).active_doc < (s.closeTab i).docs.length) :=
  ⟨reaches_app_invariant s hs,
    fun h i => closeTab_single s h i,
    fun i => closeTab_active_valid s (reaches_app_invariant s hs).2 i⟩

/-- Witness for C5 at the concrete initial state. -/
theorem document_set_invariant_witness :
    ReachesApp TextEditorApp.new
    ∧ ((TextEditorApp.new.docs ≠ []
        ∧ TextEditorApp.new.active_doc < TextEditorApp.new.docs.length)
      ∧ (TextEditorApp.new.docs.length = 1 →
          ∀ i, TextEditorApp.new.closeTab i = TextEditorApp.new)
      ∧ (∀ i, (TextEditorApp.new.closeTab i).active_doc
          < (TextEditorApp.new.closeTab i).docs.length)) :=
  ⟨ReachesApp.init, document_set_invariant TextEditorApp.new ReachesApp.init⟩

/-- Claim C9: a due autosave sweep writes, for every dirty untitled document,
the document's current text to `autosave_<id>.txt` in the current directory,
and afterwards that document is still dirty and still has no path; the sweep
keeps the document list intact. -/
theorem autosave_untitled (s : TextEditorApp) (fsOk : String → Bool)
    (dir : String) (i : Nat) (hi : i < s.docs.length)
    (hd : (s.docs.getD i (Document.new_untitled 0)).dirty = true)
    (hp : (s.docs.getD i (Document.new_untitled 0)).path = none) :
    (dir ++ "/" ++ ("autosave_"
        ++ Nat.repr (s.docs.getD i (Document.new_untitled 0)).id ++ ".txt"),
      (s.docs.getD i (Document.new_untitled 0)).text)
      ∈ (s.handle_autosave true fsOk (some dir)).2
    ∧ ((s.handle_autosave true fsOk (some dir)).1.docs.getD i
        (Document.new_untitled 0)).dirty = true
    ∧ ((s.handle_autosave true fsOk (some dir)).1.docs.getD i
        (Document.new_untitled 0)).path = none
    ∧ (s.handle_autosave true fsOk (some dir)).1.docs.length = s.docs.length := by
  have hD : s.docs.getD i (Document.new_untitled 0) = s.docs[i] :=
    List.getD_eq_getElem _ _ hi
  have hauto : autosaveDoc fsOk (some dir) (s.docs.getD i (Document.new_untitled 0))
      = (s.docs.getD i (Document.new_untitled 0),
        [(dir ++ "/" ++ ("autosave_"
            ++ Nat.repr (s.docs.getD i (Document.new_untitled 0)).id ++ ".txt"),
          (s.docs.getD i (Document.new_untitled 0)).text)]) := by
    unfold autosaveDoc
    rw [hd, hp]
    simp
  have hi' : i < (s.docs.map (fun x => (autosaveDoc fsOk (some dir) x).1)).length := by
    simpa using hi
  have hres : ((s.handle_autosave true fsOk (some dir)).1.docs.getD i
      (Document.new_untitled 0)) = s.docs.getD i (Document.new_untitled 0) := by
    show ((s.docs.map (fun x => (autosaveDoc fsOk (some dir) x).1)).getD i
      (Document.new_untitled 0)) = _
    rw [List.getD_eq_getElem _ _ hi', List.getElem_map, ← hD, hauto]
  refine ⟨?_, ?_, ?_, ?_⟩
  · show _ ∈ (s.docs.map (fun x => (autosaveDoc fsOk (some dir) x).2)).flatten
    apply List.mem_flatten.mpr
    refine ⟨(autosaveDoc fsOk (some dir) (s.docs.getD i (Document.new_untitled 0))).2,
      List.mem_map_of_mem _ ?_, ?_⟩
    · rw [hD]
      exact List.getElem_mem hi
    · rw [hauto]
      simp
  · rw [hres]
    exact hd
  · rw [hres]
    exact hp
  · show (s.docs.map (fun x => (autosaveDoc fsOk (some dir) x).1)).length = s.docs.length
    rw [List.length_map]

/-- Witness for C9 at a concrete input: `sampleApp` holds one dirty untitled
document with id 3 and text `"h"`. -/
theorem autosave_untitled_witness :
    (0 < sampleApp.docs.length
      ∧ (sampleApp.docs.getD 0 (Document.new_untitled 0)).dirty = true
      ∧ (sampleApp.docs.getD 0 (Document.new_untitled 0)).path = none)
    ∧ (("." ++ "/" ++ ("autosave_"
          ++ Nat.repr (sampleApp.docs.getD 0 (Document.new_untitled 0)).id ++ ".txt"),
        (sampleApp.docs.getD 0 (Document.new_untitled 0)).text)
        ∈ (sampleApp.handle_autosave true (fun _ => true) (some ".")).2
      ∧ ((sampleApp.handle_autosave true (fun _ => true) (some ".")).1.docs.getD 0
          (Document.new_untitled 0)).dirty = true
      ∧ ((sampleApp.handle_autosave true (fun _ => true) (some ".")).1.docs.getD 0
          (Document.new_untitled 0)).path = none
      ∧ (sampleApp.handle_autosave true (fun _ => true) (some ".")).1.docs.length
          = sampleApp.docs.length) :=
  ⟨⟨by decide, by decide, by decide⟩,
    autosave_untitled sampleApp (fun _ => true) "." 0
      (by decide) (by decide) (by decide)⟩

end Editor
